import Mathlib

/-!
Verification of the Osiris/DNAscent data ingestion module (`Osiris/data_IO.py`).

Shallow embedding conventions:
* Python strings are `List Char`; a file already read by `readlines` is a
  `List (List Char)` of lines with the trailing newline stripped.
* Python floats are embedded as exact rationals `ℚ`; the numeric
  serialisation used by the pore-model writer is modelled value-exactly
  (the spec brackets numeral precision as "floating-point tolerance").
* Fallible code returns `Except Err`; each constructor of `Err` names the
  Python exception that the corresponding statement raises.
-/

/-- Exceptions raised by the Python code, by the name the spec gives them. -/
inductive Err : Type
  | CorruptInputError      -- IOError: h5py.File cannot open the container
  | MissingDataError       -- KeyError: expected dataset path absent in the container
  | MalformedModelError    -- IndexError/ValueError while parsing a model line
  | UnknownKmerError       -- KeyError: called k-mer absent from kmer2MeanStd
  | SingularMatrixError    -- numpy.linalg.LinAlgError from np.linalg.solve
  | ZeroDivisionError      -- float division by zero
  deriving DecidableEq, Repr

deriving instance DecidableEq for Except

/-- Python slice `s[i:j]` for `0 ≤ i ≤ j` (clamped at the end of the string). -/
def pySlice (s : List Char) (i j : Nat) : List Char :=
  (s.drop i).take (j - i)

/-- All (possibly overlapping) start indices of `p` in `s`, ascending: the
model of `[m.start() for m in re.finditer('(?=' + p + ')', s)]`. -/
def occurrences (p s : List Char) : List Nat :=
  (List.range (s.length + 1)).filter (fun i => p.isPrefixOf (s.drop i))

/-- Python `s.find(p)`: index of the first occurrence of `p` in `s`, `-1` if absent. -/
def pyFind (p s : List Char) : Int :=
  match (occurrences p s).head? with
  | some i => (i : Int)
  | none => -1

/-- Watson-Crick complement of one base. -/
def complementBase (c : Char) : Char :=
  if c = 'A' then 'T'
  else if c = 'T' then 'A'
  else if c = 'C' then 'G'
  else if c = 'G' then 'C'
  else c

/-- Modelled from the spec: `reverseComplement` is imported from the
repository's `utility` module, which is not among the provided sources.
Per the spec's glossary (a hairpin contains "two complementary strands";
the complementary strand of the candidate must appear upstream) it is the
standard reverse complement: complement every base (A↔T, C↔G) and reverse. -/
def reverseComplement (s : List Char) : List Char :=
  (s.map complementBase).reverse

/-- The candidate list collected by `import_HairpinTrainingData` for one read:
for every start index of the 5' flanking motif and every start index of the
3' flanking motif, the subsequence strictly between them, kept when it is a
7-mer with an `A` in the middle.  Order and multiplicity follow the nested
Python loops. -/
def candidatesFor (reference : List Char) (redundant_A_Loc : Nat) (sequence : List Char) :
    List (List Char) :=
  let start := pySlice reference (redundant_A_Loc - 7) (redundant_A_Loc - 3)
  let stop := pySlice reference (redundant_A_Loc + 4) (redundant_A_Loc + 8)
  (occurrences start sequence).flatMap (fun si =>
    (occurrences stop sequence).filterMap (fun ei =>
      if ei > si + start.length then
        let candidate := pySlice sequence (si + start.length) ei
        if candidate.length = 7 ∧ candidate.get? 3 = some 'A' then some candidate else none
      else none))

/-- The per-read bucket decision of `import_HairpinTrainingData`
(lines 414-436): `some c` when the read is added to bucket `c`, `none`
when the read is discarded. -/
def assignRead (reference : List Char) (redundant_A_Loc : Nat) (sequence : List Char) :
    Option (List Char) :=
  match candidatesFor reference redundant_A_Loc sequence with
  | [c] =>
      let idx_brdu := pyFind (reverseComplement c) sequence
      let idx_a := pyFind c sequence
      if idx_brdu ≠ -1 ∧ idx_brdu < idx_a then some c else none
  | _ => none

/-- Value of a decimal digit character. -/
def charToDigit (c : Char) : Nat := c.toNat - 48

/-- Little-endian decimal digits of `n`, driven by explicit fuel so that the
recursion is structural. -/
def digitsFuel : Nat → Nat → List Nat
  | 0, _ => []
  | fuel + 1, n => if n = 0 then [] else n % 10 :: digitsFuel fuel (n / 10)

/-- Decimal digit string of a natural number (most significant digit first). -/
def natChars (n : Nat) : List Char :=
  if n = 0 then ['0'] else (digitsFuel n n).reverse.map Nat.digitChar

/-- Numeric value of a decimal digit string. -/
def charsToNat (ds : List Char) : Nat :=
  ds.foldl (fun a c => 10 * a + charToDigit c) 0

/-- Split a character list into its maximal leading run of digits and the rest. -/
def takeDigits (s : List Char) : List Char × List Char :=
  (s.takeWhile Char.isDigit, s.dropWhile Char.isDigit)

/-- Apply an optional trailing exponent part to an already-parsed value. -/
def parseExp (v : ℚ) : List Char → Option ℚ
  | [] => some v
  | 'e' :: '-' :: t =>
    match takeDigits t with
    | ([], _) => none
    | (es, r) => if r = [] then some (v / ((10 ^ charsToNat es : ℕ) : ℚ)) else none
  | 'e' :: t =>
    match takeDigits t with
    | ([], _) => none
    | (es, r) => if r = [] then some (v * ((10 ^ charsToNat es : ℕ) : ℚ)) else none
  | _ => none

/-- Parse the optional fraction part after the integer part, then the exponent. -/
def parseAfterInt (sgn ip : ℚ) : List Char → Option ℚ
  | '.' :: t =>
    match takeDigits t with
    | (fs, r) => parseExp (sgn * (ip + (charsToNat fs : ℚ) / ((10 ^ fs.length : ℕ) : ℚ))) r
  | rest => parseExp (sgn * (ip + 0)) rest

/-- Parse the mandatory integer part of a float literal. -/
def parseSigned (sgn : ℚ) (s : List Char) : Option ℚ :=
  match takeDigits s with
  | ([], _) => none
  | (ds, rest) => parseAfterInt sgn (charsToNat ds : ℚ) rest

/-- Model of Python `float(s)` on the grammar `-? digits (. digits)? (e -? digits)?`,
returning the exact rational value. -/
def parseQ (s : List Char) : Option ℚ :=
  if s.head? = some '-' then parseSigned (-1) s.tail else parseSigned 1 s

/-- Value-exact serialisation of a rational as a Python float literal
`<int>e-<k>`.  The source writes `str(float)`; since the spec treats the
numeral round trip as exact up to floating-point tolerance, the embedding
uses a printer that is exactly inverted by `parseQ` whenever the
denominator is 10-smooth (which every binary float's denominator is). -/
def printQ (q : ℚ) : List Char :=
  (if q.num < 0 then '-' :: natChars (q.num.natAbs * 10 ^ q.den / q.den)
   else natChars (q.num.natAbs * 10 ^ q.den / q.den)) ++ 'e' :: '-' :: natChars q.den

/-- Python `line.split('\t')`. -/
def splitTab : List Char → List (List Char)
  | [] => [[]]
  | c :: rest =>
    if c = '\t' then [] :: splitTab rest
    else
      match splitTab rest with
      | f :: fs => (c :: f) :: fs
      | [] => [[c]]

/-- Python dict assignment `m[k] = v`: overwrite in place, else append. -/
def dictInsert {V : Type} (m : List (List Char × V)) (k : List Char) (v : V) :
    List (List Char × V) :=
  if m.any (fun p => decide (p.1 = k)) then
    m.map (fun p => if p.1 = k then (k, v) else p)
  else m ++ [(k, v)]

/-- The literal header token of a pore-model file. -/
def kmerToken : List Char := ['k', 'm', 'e', 'r']

/-- The line loop of `import_poreModel` (lines 89-96): skip lines starting
with `#` or with the token `kmer`, split the rest on tabs and record
`field0 ↦ (float(field1), float(field2))` with dict overwrite semantics. -/
def importLoop :
    List (List Char) → List (List Char × ℚ × ℚ) → Except Err (List (List Char × ℚ × ℚ))
  | [], m => .ok m
  | line :: rest, m =>
    match line with
    | [] => .error .MalformedModelError          -- line[0] raises IndexError
    | c :: _ =>
      if c = '#' ∨ line.take 4 = kmerToken then importLoop rest m
      else
        match splitTab line with
        | f0 :: f1 :: f2 :: _ =>
          match parseQ f1, parseQ f2 with
          | some mean, some std => importLoop rest (dictInsert m f0 (mean, std))
          | _, _ => .error .MalformedModelError  -- float() raises ValueError
        | _ => .error .MalformedModelError       -- splitLine[2] raises IndexError

/-- `import_poreModel` on the lines of an already-read file: a map from
k-mer to (mean, std), last write wins. -/
def import_poreModel (file : List (List Char)) : Except Err (List (List Char × ℚ × ℚ)) :=
  importLoop file []

/-- The fixed five header lines written by `export_poreModel`. -/
def headerLines : List (List Char) :=
  [ ("#model_name\ttemplate_median68pA.model.baseAnalogue").toList,
    ("#type\tbase").toList,
    ("#strand\ttemplate").toList,
    ("#kit\tSQK007").toList,
    ("kmer\tlevel_mean\tlevel_stdv\tsd_mean\tsd_stdv").toList ]

/-- The literal placeholder field `0.0`. -/
def zeroField : List Char := ['0', '.', '0']

/-- One data row written by `export_poreModel` (line 196):
`key + '\t' + str(mean) + '\t' + str(std) + '\t0.0\t0.0'`. -/
def exportLine (e : List Char × ℚ × ℚ) : List Char :=
  e.1 ++ ('\t' :: (printQ e.2.1 ++ ('\t' :: (printQ e.2.2 ++
    ('\t' :: (zeroField ++ ('\t' :: zeroField)))))))

/-- `export_poreModel` (lines 184-200): five header lines, then one
tab-separated row per k-mer with the mean, the std, and two `0.0`
placeholder columns. -/
def export_poreModel (emissions : List (List Char × ℚ × ℚ)) : List (List Char) :=
  headerLines ++ emissions.map exportLine

/-- One row of the per-read Events dataset; the code reads index 0 (signal
mean), index 4 (called 5mer) and index 7 (confidence). -/
structure Event where
  mean : ℚ
  kmer : List Char
  confidence : ℚ
  deriving DecidableEq

/-- The per-read affine correction: `shift = x[0][0]`, `scale = x[1][0]`. -/
structure Calibration where
  shift : ℚ
  scale : ℚ
  deriving DecidableEq

/-- The `kmer2MeanStd` map produced by the pore-model loader. -/
abbrev PoreModel := List (List Char × ℚ × ℚ)

/-- Python dict lookup `kmer2MeanStd[k]` (the map has unique keys). -/
def modelLookup (m : PoreModel) (k : List Char) : Option (ℚ × ℚ) :=
  (m.find? (fun p => decide (p.1 = k))).map (fun p => p.2)

/-- The first event loop of both normalisation routines (lines 234-248):
accumulate `(A00, A10, A11, b0, b1)` over the events with confidence above
0.30, with weight `1/std²` from the model entry of the called k-mer. -/
def accumAB (model : PoreModel) :
    List Event → ℚ × ℚ × ℚ × ℚ × ℚ → Except Err (ℚ × ℚ × ℚ × ℚ × ℚ)
  | [], acc => .ok acc
  | e :: es, acc =>
    if e.confidence > 3/10 then
      match modelLookup model e.kmer with
      | none => .error .UnknownKmerError      -- kmer2MeanStd[model_5mer] raises KeyError
      | some ms =>
        if ms.2 = 0 then .error .ZeroDivisionError
        else
          accumAB model es
            (acc.1 + 1 / ms.2 ^ 2,
             acc.2.1 + 1 / ms.2 ^ 2 * ms.1,
             acc.2.2.1 + 1 / ms.2 ^ 2 * ms.1 ^ 2,
             acc.2.2.2.1 + 1 / ms.2 ^ 2 * e.mean,
             acc.2.2.2.2 + 1 / ms.2 ^ 2 * e.mean * ms.1)
    else accumAB model es acc

/-- Estimate shift and scale for one read (lines 232-256): accumulate the
normal equations, set `A[0,1] = A[1,0]` by symmetry, and solve `Ax = b`;
`np.linalg.solve` raises `LinAlgError` when the matrix is singular. -/
def estimateShiftScale (model : PoreModel) (events : List Event) : Except Err Calibration :=
  match accumAB model events (0, 0, 0, 0, 0) with
  | .error e => .error e
  | .ok (a00, a10, a11, b0, b1) =>
    if a00 * a11 - a10 * a10 = 0 then .error .SingularMatrixError
    else
      .ok ⟨(b0 * a11 - b1 * a10) / (a00 * a11 - a10 * a10),
           (a00 * b1 - a10 * b0) / (a00 * a11 - a10 * a10)⟩

/-- The second event loop (lines 258-263): re-filter by the same confidence
threshold and emit `event_mean/scale - shift` in order. -/
def normaliseEvents (events : List Event) (cal : Calibration) : List ℚ :=
  events.foldl
    (fun acc e => if e.confidence > 3/10 then acc ++ [e.mean / cal.scale - cal.shift] else acc)
    []

/-- A raw per-read fast5 container, as far as the code observes it:
whether it can be opened, and its two optionally-present datasets. -/
structure Fast5 where
  corrupt : Bool
  fastq : Option (List Char)
  events : Option (List Event)
  deriving DecidableEq

/-- Open a container and fetch the 1D Events dataset
(`/Analyses/Basecall_1D_000/BaseCalled_template/Events`). -/
def openEvents (f : Fast5) : Except Err (List Event) :=
  if f.corrupt then .error .CorruptInputError
  else
    match f.events with
    | none => .error .MissingDataError
    | some evs => .ok evs

/-- The per-file body shared verbatim by the two normalisation routines:
open the container, estimate shift and scale, normalise the same events. -/
def processRead (model : PoreModel) (f : Fast5) : Except Err (List ℚ) :=
  match openEvents f with
  | .error e => .error e
  | .ok evs =>
    match estimateShiftScale model evs with
    | .error e => .error e
    | .ok cal =>
      if cal.scale = 0 ∧ evs.any (fun e => decide (e.confidence > 3/10)) then
        .error .ZeroDivisionError    -- event_mean/scale raises at the first qualifying event
      else .ok (normaliseEvents evs cal)

/-- The file loop of `serial_calculate_normalisedEvents` (lines 293-334):
an exception while handling any file propagates and aborts the whole call. -/
def serialLoop (model : PoreModel) : List Fast5 → Except Err (List (List ℚ))
  | [] => .ok []
  | f :: fs =>
    match processRead model f with
    | .error e => .error e
    | .ok r =>
      match serialLoop model fs with
      | .error e => .error e
      | .ok rs => .ok (r :: rs)

/-- `serial_calculate_normalisedEvents` (lines 274-336): open the model file
once, then process every fast5 container in order. -/
def serial_calculate_normalisedEvents (fast5Files : List Fast5)
    (poreModelFile : List (List Char)) : Except Err (List (List ℚ)) :=
  match import_poreModel poreModelFile with
  | .error e => .error e
  | .ok model => serialLoop model fast5Files

/-- The file loop of `parallel_calculate_normalisedEvents` (lines 226-267),
textually identical to the serial one. -/
def parallelLoop (model : PoreModel) : List Fast5 → Except Err (List (List ℚ))
  | [] => .ok []
  | f :: fs =>
    match processRead model f with
    | .error e => .error e
    | .ok r =>
      match parallelLoop model fs with
      | .error e => .error e
      | .ok rs => .ok (r :: rs)

/-- `parallel_calculate_normalisedEvents` (lines 203-271): same loop as the
serial routine; `kmer` is returned in the result tuple and `progress` is
only printed. -/
def parallel_calculate_normalisedEvents (kmer : List Char) (fast5Files : List Fast5)
    (poreModelFile : List (List Char)) (progress : Nat × Nat) :
    Except Err (List Char × List (List ℚ)) :=
  match import_poreModel poreModelFile with
  | .error e => .error e
  | .ok model =>
    match parallelLoop model fast5Files with
    | .error e => .error e
    | .ok allNormalisedReads =>
      let _ := progress
      .ok (kmer, allNormalisedReads)

/-- Fetch the 2D fastq dataset (`/Analyses/Basecall_2D_000/BaseCalled_2D/Fastq`);
the dataset value is modelled as the already-extracted sequence line. -/
def openFastq (f : Fast5) : Except Err (List Char) :=
  if f.corrupt then .error .CorruptInputError
  else
    match f.fastq with
    | none => .error .MissingDataError
    | some s => .ok s

/-- The per-file loop of `import_2Dfasta` (lines 125-166): a `KeyError` or
`IOError` on one file is caught, a warning is issued and that file is
skipped; each success contributes one fasta entry (path, sequence). -/
def import_2Dfasta : List (List Char × Fast5) → List (List Char × List Char)
  | [] => []
  | nf :: rest =>
    match openFastq nf.2 with
    | .error _ => import_2Dfasta rest
    | .ok s => (nf.1, s) :: import_2Dfasta rest

/-- One BAM record, as far as `import_HairpinTrainingData` observes it. -/
structure BamRecord where
  query_name : List Char
  query_sequence : List Char

/-- Python `kmer2Files[c] += [readID]` respectively `kmer2Files[c] = [readID]`. -/
def addToBucket (m : List (List Char × List (List Char))) (k v : List Char) :
    List (List Char × List (List Char)) :=
  if m.any (fun p => decide (p.1 = k)) then
    m.map (fun p => if p.1 = k then (p.1, p.2 ++ [v]) else p)
  else m ++ [(k, [v])]

/-- The record loop of `import_HairpinTrainingData` (lines 409-436). -/
def bucketLoop (reference : List Char) (redundant_A_Loc : Nat) :
    List BamRecord → List (List Char × List (List Char)) → List (List Char × List (List Char))
  | [], m => m
  | r :: rs, m =>
    match assignRead reference redundant_A_Loc r.query_sequence with
    | some c => bucketLoop reference redundant_A_Loc rs (addToBucket m c r.query_name)
    | none => bucketLoop reference redundant_A_Loc rs m

/-- The `kmer2Files` map built from the BAM records. -/
def buildKmer2Files (reference : List Char) (redundant_A_Loc : Nat)
    (records : List BamRecord) : List (List Char × List (List Char)) :=
  bucketLoop reference redundant_A_Loc records []

/-- The per-bucket dispatch loop of `import_HairpinTrainingData` (line 448):
bucket `i` of `total` is handed to the parallel normalisation routine with
progress `(i, total)`; an exception in any task aborts the run. -/
def hairpinLoop (poreModelFile : List (List Char)) (env : List Char → Fast5) (total : Nat) :
    List (List Char × List (List Char)) → Nat → Except Err (List (List Char × List (List ℚ)))
  | [], _ => .ok []
  | b :: bs, i =>
    match parallel_calculate_normalisedEvents b.1 (b.2.map env) poreModelFile (i, total) with
    | .error e => .error e
    | .ok t =>
      match hairpinLoop poreModelFile env total bs (i + 1) with
      | .error e => .error e
      | .ok ts => .ok (t :: ts)

/-- `import_HairpinTrainingData` (lines 377-455): build the bucket map, drop
buckets below `readsThreshold`, normalise each surviving bucket, and reshape
the result tuples into the `kmer2normalisedReads` dict.  `env` resolves a
read identifier to its fast5 container. -/
def import_HairpinTrainingData (reference : List Char) (redundant_A_Loc : Nat)
    (records : List BamRecord) (poreModelFile : List (List Char))
    (env : List Char → Fast5) (readsThreshold : Nat) :
    Except Err (List (List Char × List (List ℚ))) :=
  let filtered := (buildKmer2Files reference redundant_A_Loc records).filter
    (fun b => decide (b.2.length ≥ readsThreshold))
  match hairpinLoop poreModelFile env filtered.length filtered 0 with
  | .error e => .error e
  | .ok ts => .ok (ts.foldl (fun m t => dictInsert m t.1 t.2) [])

/-- One alignment record, as far as the filter in `alignAndSort` observes it. -/
structure AlignmentRecord where
  reference_id : Nat
  pos : ℚ
  aend : Option ℚ
  query_alignment_length : Option ℚ
  query_length : ℚ
  is_reverse : Bool

/-- The quality filter of `alignAndSort` (lines 490-501): records with an
undefined aligned end or query-alignment length are skipped (`continue`);
otherwise keep iff both coverages exceed 0.8 and the strand is forward. -/
def keepRecord (lengths : Nat → ℚ) (r : AlignmentRecord) : Bool :=
  match r.aend, r.query_alignment_length with
  | some aend, some qal =>
    decide ((aend - r.pos) / lengths r.reference_id > 8/10 ∧
      qal / r.query_length > 8/10 ∧ r.is_reverse = false)
  | _, _ => false

/-- The records written to the per-reference output file `refId + ".bam"`. -/
def writtenRecords (lengths : Nat → ℚ) (records : List AlignmentRecord) (refId : Nat) :
    List AlignmentRecord :=
  records.filter (fun r => keepRecord lengths r && decide (r.reference_id = refId))

/-! Spec-side definitions, written from the spec's words, used to state the
claims against the code-derived definitions above. -/

/-- Spec 4.3/4.4: the events that participate, "`confidence > 0.30` as the
sole filter". -/
def qualifyingEvents (events : List Event) : List Event :=
  events.filter (fun e => decide (e.confidence > 3/10))

/-- Spec 4.3: the weight `w = 1/std²` of an event's called k-mer. -/
def specWeight (model : PoreModel) (e : Event) : ℚ :=
  1 / ((modelLookup model e.kmer).getD (0, 0)).2 ^ 2

/-- Spec 4.3: the model mean of an event's called k-mer. -/
def specModelMean (model : PoreModel) (e : Event) : ℚ :=
  ((modelLookup model e.kmer).getD (0, 0)).1

/-- Spec 4.3: `A00 = Σ w` over the qualifying events. -/
def specA00 (model : PoreModel) (events : List Event) : ℚ :=
  ((qualifyingEvents events).map (specWeight model)).sum

/-- Spec 4.3: `A10 = A01 = Σ w·modelMean`. -/
def specA10 (model : PoreModel) (events : List Event) : ℚ :=
  ((qualifyingEvents events).map (fun e => specWeight model e * specModelMean model e)).sum

/-- Spec 4.3: `A11 = Σ w·modelMean²`. -/
def specA11 (model : PoreModel) (events : List Event) : ℚ :=
  ((qualifyingEvents events).map (fun e => specWeight model e * specModelMean model e ^ 2)).sum

/-- Spec 4.3: `b0 = Σ w·eventMean`. -/
def specB0 (model : PoreModel) (events : List Event) : ℚ :=
  ((qualifyingEvents events).map (fun e => specWeight model e * e.mean)).sum

/-- Spec 4.3: `b1 = Σ w·eventMean·modelMean`. -/
def specB1 (model : PoreModel) (events : List Event) : ℚ :=
  ((qualifyingEvents events).map (fun e => specWeight model e * e.mean * specModelMean model e)).sum

/-- Spec 4.1/8: the non-header, non-comment lines of a pore-model file. -/
def dataLines (file : List (List Char)) : List (List Char) :=
  file.filter (fun l => decide (l.head? ≠ some '#' ∧ l.take 4 ≠ kmerToken))

/-- Spec 4.1: the (kmer, mean, std) triple carried by one well-formed data line. -/
def parseLine (l : List Char) : Option (List Char × ℚ × ℚ) :=
  match splitTab l with
  | f0 :: f1 :: f2 :: _ =>
    match parseQ f1, parseQ f2 with
    | some mean, some std => some (f0, mean, std)
    | _, _ => none
  | _ => none

/-- Spec 4.1: the entries of the data lines, in file order. -/
def parsedEntries (file : List (List Char)) : List (List Char × ℚ × ℚ) :=
  (dataLines file).filterMap parseLine

/-- Spec 4.1 ("duplicate k-mer entries: last write wins"): the value of the
last data line carrying the key. -/
def lastParsed (file : List (List Char)) (k : List Char) : Option (ℚ × ℚ) :=
  (((parsedEntries file).filter (fun e => decide (e.1 = k))).getLast?).map (fun e => e.2)

/-! Concrete instances used by the theorems below. -/

/-- A pore-model file with one comment line, one header line, and two data
lines that carry the same k-mer. -/
def exDupFile : List (List Char) :=
  [("#comment").toList, ("kmer\tlevel_mean\tlevel_stdv").toList,
   ("AAAAA\t1.0\t2.0").toList, ("AAAAA\t3.0\t4.0").toList]

/-- A forward-strand record with both coverages 9/10. -/
def exRecord : AlignmentRecord := ⟨0, 0, some 9, some 9, 10, false⟩

/-- A forward-strand record whose query coverage is 6/8 = 0.75. -/
def exRecord075 : AlignmentRecord := ⟨0, 0, some 9, some 6, 8, false⟩

/-- Reference lengths: every reference has length 10. -/
def exLengths : Nat → ℚ := fun _ => 10

def refEx : List Char := "ACGTTTTATTTCCGG".toList
def seqAccept : List Char := "AAATAAAACGTTTTATTTCCGG".toList
def seqDouble : List Char := "AAATAAAACGTTTTATTTCCGGACGTTTTATTTCCGG".toList

def demoModel : PoreModel := [(['A','A','A','A','A'], 1, 1), (['C','C','C','C','C'], 3, 1)]
def e1 : Event := ⟨2, ['A','A','A','A','A'], 1/2⟩
def e2 : Event := ⟨4, ['C','C','C','C','C'], 1/2⟩
def demoModelFile : List (List Char) := [("AAAAA\t1e-0\t1e-0").toList, ("CCCCC\t3e-0\t1e-0").toList]
def goodF5 : Fast5 := ⟨false, none, some [e1, e2]⟩
def badF5 : Fast5 := ⟨false, none, some []⟩

/-! ## Helper lemmas -/

lemma normaliseEvents_foldl (events : List Event) (cal : Calibration) (acc : List ℚ) :
    events.foldl
      (fun acc e => if e.confidence > 3/10 then acc ++ [e.mean / cal.scale - cal.shift] else acc)
      acc =
      acc ++ (events.filter (fun e => decide (e.confidence > 3/10))).map
        (fun e => e.mean / cal.scale - cal.shift) := by
  induction events generalizing acc with
  | nil => simp
  | cons e es ih =>
    simp only [List.foldl_cons, List.filter_cons]
    by_cases h : e.confidence > 3/10
    · rw [if_pos h, ih]
      simp [h]
    · rw [if_neg h, ih]
      simp [h]

lemma parallelLoop_eq_serialLoop (model : PoreModel) (files : List Fast5) :
    parallelLoop model files = serialLoop model files := by
  induction files with
  | nil => rfl
  | cons f fs ih => simp only [parallelLoop, serialLoop, ih]

/-! ## Claim theorems -/

/-- C3: For every event sequence and Calibration with nonzero scale, the
normaliser emits `eventMean/scale - shift` for exactly the events with
confidence above 0.30, preserving order; the output length equals the number
of qualifying events, and calibration (1, 1) maps event mean 5 to 4. -/
theorem read_normaliser_correct (events : List Event) (cal : Calibration)
    (hscale : cal.scale ≠ 0) :
    normaliseEvents events cal =
      (events.filter (fun e => decide (e.confidence > 3/10))).map
        (fun e => e.mean / cal.scale - cal.shift) ∧
    (normaliseEvents events cal).length =
      (events.filter (fun e => decide (e.confidence > 3/10))).length ∧
    normaliseEvents [⟨5, [], 1⟩] ⟨1, 1⟩ = [4] := by
  have h : normaliseEvents events cal =
      (events.filter (fun e => decide (e.confidence > 3/10))).map
        (fun e => e.mean / cal.scale - cal.shift) := by
    simpa [normaliseEvents] using normaliseEvents_foldl events cal []
  exact ⟨h, by rw [h]; simp, by decide!⟩

theorem read_normaliser_correct_witness :
    (1 : ℚ) ≠ 0 ∧ normaliseEvents [e1, e2] ⟨1, 1⟩ =
      ([e1, e2].filter (fun e => decide (e.confidence > 3/10))).map
        (fun e => e.mean / (1 : ℚ) - 1) :=
  ⟨one_ne_zero, (read_normaliser_correct [e1, e2] ⟨1, 1⟩ one_ne_zero).1⟩

/-- C8: An alignment record with defined aligned end and query-alignment
length is kept (written to its reference's output) iff both coverage ratios
exceed 0.8 and the record is forward-strand; query coverage 0.75 always
excludes the record. -/
theorem alignment_record_filtering (lengths : Nat → ℚ) (records : List AlignmentRecord)
    (r : AlignmentRecord) (a q : ℚ)
    (ha : r.aend = some a) (hq : r.query_alignment_length = some q) :
    (keepRecord lengths r = true ↔
      (a - r.pos) / lengths r.reference_id > 8/10 ∧ q / r.query_length > 8/10 ∧
        r.is_reverse = false) ∧
    (q / r.query_length = 3/4 → keepRecord lengths r = false) ∧
    (∀ i, r ∈ writtenRecords lengths records i ↔
      r ∈ records ∧ keepRecord lengths r = true ∧ r.reference_id = i) := by
  have hkeep : keepRecord lengths r = true ↔
      (a - r.pos) / lengths r.reference_id > 8/10 ∧ q / r.query_length > 8/10 ∧
        r.is_reverse = false := by
    unfold keepRecord
    rw [ha, hq]
    exact decide_eq_true_iff
  refine ⟨hkeep, ?_, ?_⟩
  · intro h75
    cases hkr : keepRecord lengths r with
    | false => rfl
    | true =>
      have := (hkeep.mp hkr).2.1
      rw [h75] at this
      norm_num at this
  · intro i
    unfold writtenRecords
    rw [List.mem_filter]
    simp [Bool.and_eq_true]

/-- C10: The parallel per-bucket normalisation routine computes exactly the
serial routine's list as its second tuple component; the bucket key and the
progress argument never affect the normalised values. -/
theorem serial_parallel_normaliser_equivalence (kmer : List Char) (files : List Fast5)
    (modelFile : List (List Char)) (progress : Nat × Nat) :
    parallel_calculate_normalisedEvents kmer files modelFile progress =
      Except.map (fun rs => (kmer, rs)) (serial_calculate_normalisedEvents files modelFile) ∧
    (∀ res, parallel_calculate_normalisedEvents kmer files modelFile progress = .ok res →
      serial_calculate_normalisedEvents files modelFile = .ok res.2) := by
  have hmap : parallel_calculate_normalisedEvents kmer files modelFile progress =
      Except.map (fun rs => (kmer, rs)) (serial_calculate_normalisedEvents files modelFile) := by
    unfold parallel_calculate_normalisedEvents serial_calculate_normalisedEvents
    cases import_poreModel modelFile with
    | error e => rfl
    | ok model =>
      dsimp only
      rw [parallelLoop_eq_serialLoop]
      cases serialLoop model files with
      | error e => rfl
      | ok rs => rfl
  refine ⟨hmap, ?_⟩
  intro res hres
  rw [hmap] at hres
  cases hser : serial_calculate_normalisedEvents files modelFile with
  | error e => rw [hser] at hres; exact absurd hres (by simp [Except.map])
  | ok rs =>
    rw [hser] at hres
    simp only [Except.map] at hres
    cases hres
    rfl

theorem serial_parallel_normaliser_equivalence_witness :
    serial_calculate_normalisedEvents [goodF5] demoModelFile =
      .ok ((("AAAAAAA").toList, [[(1 : ℚ), 3]]) : List Char × List (List ℚ)).2 :=
  (serial_parallel_normaliser_equivalence ("AAAAAAA").toList [goodF5] demoModelFile (0, 1)).2
    (("AAAAAAA").toList, [[(1 : ℚ), 3]]) (by decide!)

lemma accumAB_ok_of (model : PoreModel) :
    ∀ events : List Event,
      (∀ e ∈ events, e.confidence > 3/10 → (modelLookup model e.kmer).isSome = true ∧
        ((modelLookup model e.kmer).getD (0, 0)).2 ≠ 0) →
      ∀ acc : ℚ × ℚ × ℚ × ℚ × ℚ,
        accumAB model events acc =
          .ok (acc.1 + specA00 model events, acc.2.1 + specA10 model events,
               acc.2.2.1 + specA11 model events, acc.2.2.2.1 + specB0 model events,
               acc.2.2.2.2 + specB1 model events) := by
  intro events
  induction events with
  | nil =>
    intro _ acc
    simp [accumAB, specA00, specA10, specA11, specB0, specB1, qualifyingEvents]
  | cons e es ih =>
    intro hmem acc
    have hes : ∀ e ∈ es, e.confidence > 3/10 → (modelLookup model e.kmer).isSome = true ∧
        ((modelLookup model e.kmer).getD (0, 0)).2 ≠ 0 :=
      fun x hx => hmem x (List.mem_cons_of_mem _ hx)
    by_cases hq : e.confidence > 3/10
    · obtain ⟨hsome, hstd⟩ := hmem e (List.mem_cons_self _ _) hq
      obtain ⟨ms, hms⟩ := Option.isSome_iff_exists.mp hsome
      rw [hms] at hstd
      simp only [Option.getD_some] at hstd
      have hq00 : qualifyingEvents (e :: es) = e :: qualifyingEvents es := by
        simp [qualifyingEvents, List.filter_cons, hq]
      have hw : specWeight model e = 1 / ms.2 ^ 2 := by
        simp [specWeight, hms]
      have hm : specModelMean model e = ms.1 := by
        simp [specModelMean, hms]
      simp only [accumAB, if_pos hq, hms]
      rw [if_neg hstd, ih hes]
      simp only [specA00, specA10, specA11, specB0, specB1, hq00, List.map_cons,
        List.sum_cons, hw, hm]
      refine congrArg Except.ok ?_
      simp only [Prod.mk.injEq]
      refine ⟨by ring, by ring, by ring, by ring, by ring⟩
    · have hq00 : qualifyingEvents (e :: es) = qualifyingEvents es := by
        simp [qualifyingEvents, List.filter_cons, hq]
      simp only [accumAB, if_neg hq, ih hes]
      simp only [specA00, specA10, specA11, specB0, specB1, hq00]

/-- C2: Exactly the events with confidence above 0.30 participate in the
calibration; the accumulated normal equations are the spec's weighted sums
(with `A01 = A10` by symmetry), and the returned `(shift, scale)` solves
`A·[shift; scale] = b`. -/
theorem shift_scale_estimator_correct (model : PoreModel) (events : List Event)
    (hmem : ∀ e ∈ events, e.confidence > 3/10 → (modelLookup model e.kmer).isSome = true ∧
      ((modelLookup model e.kmer).getD (0, 0)).2 ≠ 0) :
    accumAB model events (0, 0, 0, 0, 0) =
      .ok (specA00 model events, specA10 model events, specA11 model events,
           specB0 model events, specB1 model events) ∧
    ∀ cal, estimateShiftScale model events = .ok cal →
      specA00 model events * cal.shift + specA10 model events * cal.scale =
        specB0 model events ∧
      specA10 model events * cal.shift + specA11 model events * cal.scale =
        specB1 model events := by
  have hacc := accumAB_ok_of model events hmem (0, 0, 0, 0, 0)
  simp only [zero_add] at hacc
  refine ⟨hacc, ?_⟩
  intro cal hcal
  unfold estimateShiftScale at hcal
  rw [hacc] at hcal
  set a00 := specA00 model events with ha00
  set a10 := specA10 model events with ha10
  set a11 := specA11 model events with ha11
  set b0 := specB0 model events with hb0
  set b1 := specB1 model events with hb1
  dsimp only at hcal
  by_cases hdet : a00 * a11 - a10 * a10 = 0
  · rw [if_pos hdet] at hcal
    exact absurd hcal (by simp)
  · rw [if_neg hdet] at hcal
    have hc : cal = ⟨(b0 * a11 - b1 * a10) / (a00 * a11 - a10 * a10),
        (a00 * b1 - a10 * b0) / (a00 * a11 - a10 * a10)⟩ := by
      cases hcal
      rfl
    subst hc
    constructor
    · show a00 * ((b0 * a11 - b1 * a10) / (a00 * a11 - a10 * a10)) +
        a10 * ((a00 * b1 - a10 * b0) / (a00 * a11 - a10 * a10)) = b0
      field_simp
      ring
    · show a10 * ((b0 * a11 - b1 * a10) / (a00 * a11 - a10 * a10)) +
        a11 * ((a00 * b1 - a10 * b0) / (a00 * a11 - a10 * a10)) = b1
      field_simp
      ring

theorem shift_scale_estimator_correct_witness :
    specA00 demoModel [e1, e2] * (Calibration.mk 1 1).shift +
      specA10 demoModel [e1, e2] * (Calibration.mk 1 1).scale = specB0 demoModel [e1, e2] :=
  ((shift_scale_estimator_correct demoModel [e1, e2] (by decide!)).2 ⟨1, 1⟩ (by decide!)).1

lemma accumAB_hmem_of_ok (model : PoreModel) :
    ∀ (events : List Event) (acc t : ℚ × ℚ × ℚ × ℚ × ℚ),
      accumAB model events acc = .ok t →
      ∀ e ∈ events, e.confidence > 3/10 → (modelLookup model e.kmer).isSome = true ∧
        ((modelLookup model e.kmer).getD (0, 0)).2 ≠ 0 := by
  intro events
  induction events with
  | nil => intro acc t _ e he; exact absurd he (List.not_mem_nil e)
  | cons e es ih =>
    intro acc t hok
    by_cases hqe : e.confidence > 3/10
    · cases hms : modelLookup model e.kmer with
      | none =>
        simp only [accumAB, if_pos hqe, hms] at hok
        exact absurd hok (by simp)
      | some ms =>
        simp only [accumAB, if_pos hqe, hms] at hok
        by_cases hstd : ms.2 = 0
        · rw [if_pos hstd] at hok
          exact absurd hok (by simp)
        · rw [if_neg hstd] at hok
          intro x hx hq
          rcases List.mem_cons.mp hx with hx | hx
          · rw [hx, hms]
            simp [hstd]
          · exact ih _ _ hok x hx hq
    · simp only [accumAB, if_neg hqe] at hok
      intro x hx hq
      rcases List.mem_cons.mp hx with hx | hx
      · rw [hx] at hq
        exact absurd hq hqe
      · exact ih _ _ hok x hx hq

lemma sum_map_qualifying_perm (l1 l2 : List Event) (h : l1.Perm l2) (f : Event → ℚ) :
    ((qualifyingEvents l1).map f).sum = ((qualifyingEvents l2).map f).sum :=
  List.Perm.sum_eq ((h.filter _).map f)

/-- C7: The estimator is invariant under any permutation of the input
events, but dropping a single qualifying event changes the result for some
inputs: for the two-event demo read, removing either event turns the
solvable system singular. -/
theorem estimator_reorder_invariance :
    (∀ (model : PoreModel) (l1 l2 : List Event) (cal : Calibration), l1.Perm l2 →
      estimateShiftScale model l1 = .ok cal → estimateShiftScale model l2 = .ok cal) ∧
    estimateShiftScale demoModel ([e1, e2].eraseIdx 0) ≠ estimateShiftScale demoModel [e1, e2] ∧
    estimateShiftScale demoModel ([e1, e2].eraseIdx 1) ≠ estimateShiftScale demoModel [e1, e2] := by
  refine ⟨?_, by decide!, by decide!⟩
  intro model l1 l2 cal hperm hok
  have hacc1 : ∃ t, accumAB model l1 (0, 0, 0, 0, 0) = .ok t := by
    unfold estimateShiftScale at hok
    cases hacc : accumAB model l1 (0, 0, 0, 0, 0) with
    | error err => rw [hacc] at hok; exact absurd hok (by simp)
    | ok t => exact ⟨t, rfl⟩
  obtain ⟨t, ht⟩ := hacc1
  have hmem1 := accumAB_hmem_of_ok model l1 _ _ ht
  have hmem2 : ∀ e ∈ l2, e.confidence > 3/10 → (modelLookup model e.kmer).isSome = true ∧
      ((modelLookup model e.kmer).getD (0, 0)).2 ≠ 0 :=
    fun e he => hmem1 e (hperm.mem_iff.mpr he)
  have h1 := accumAB_ok_of model l1 hmem1 (0, 0, 0, 0, 0)
  have h2 := accumAB_ok_of model l2 hmem2 (0, 0, 0, 0, 0)
  have e00 : specA00 model l2 = specA00 model l1 := sum_map_qualifying_perm _ _ hperm.symm _
  have e10 : specA10 model l2 = specA10 model l1 := sum_map_qualifying_perm _ _ hperm.symm _
  have e11 : specA11 model l2 = specA11 model l1 := sum_map_qualifying_perm _ _ hperm.symm _
  have eb0 : specB0 model l2 = specB0 model l1 := sum_map_qualifying_perm _ _ hperm.symm _
  have eb1 : specB1 model l2 = specB1 model l1 := sum_map_qualifying_perm _ _ hperm.symm _
  unfold estimateShiftScale at hok ⊢
  rw [h1] at hok
  rw [h2, e00, e10, e11, eb0, eb1]
  exact hok

theorem estimator_reorder_invariance_witness :
    estimateShiftScale demoModel [e2, e1] = .ok ⟨1, 1⟩ :=
  estimator_reorder_invariance.1 demoModel [e1, e2] [e2, e1] ⟨1, 1⟩ (by decide!) (by decide!)

lemma serialLoop_error_of_mem (model : PoreModel) :
    ∀ (files : List Fast5) (f : Fast5) (err : Err), f ∈ files →
      processRead model f = .error err → ∃ e, serialLoop model files = .error e := by
  intro files
  induction files with
  | nil => intro f err hf; exact absurd hf (List.not_mem_nil f)
  | cons g gs ih =>
    intro f err hf herr
    cases hg : processRead model g with
    | error e => exact ⟨e, by simp only [serialLoop, hg]⟩
    | ok r =>
      rcases List.mem_cons.mp hf with hf | hf
      · rw [hf] at herr
        rw [herr] at hg
        exact absurd hg (by simp)
      · obtain ⟨e, he⟩ := ih f err hf herr
        exact ⟨e, by simp only [serialLoop, hg, he]⟩

/-- C5 (amended): per-read failures are local only in the 2D-fasta export:
there a corrupt container or a missing dataset is skipped and all other
files are still processed; in the normalisation routines any per-read
failure (unreadable container, missing dataset, unknown k-mer, zero model
std, or singular calibration) aborts the whole batch with an error instead
of completing with the successful subset. -/
theorem per_read_failure_locality (files2D : List (List Char × Fast5))
    (files : List Fast5) (modelFile : List (List Char)) (model : PoreModel)
    (f : Fast5) (err : Err)
    (hmodel : import_poreModel modelFile = .ok model)
    (hf : f ∈ files) (herr : processRead model f = .error err) :
    import_2Dfasta files2D =
      files2D.filterMap (fun nf => (openFastq nf.2).toOption.map (fun s => (nf.1, s))) ∧
    ∃ e, serial_calculate_normalisedEvents files modelFile = .error e := by
  constructor
  · induction files2D with
    | nil => rfl
    | cons nf rest ih =>
      cases ho : openFastq nf.2 with
      | error e => simp only [import_2Dfasta, ho, ih, List.filterMap_cons, Except.toOption,
          Option.map_none']
      | ok s => simp only [import_2Dfasta, ho, ih, List.filterMap_cons, Except.toOption,
          Option.map_some']
  · obtain ⟨e, he⟩ := serialLoop_error_of_mem model files f err hf herr
    refine ⟨e, ?_⟩
    unfold serial_calculate_normalisedEvents
    rw [hmodel]
    exact he

theorem per_read_failure_locality_witness :
    ∃ e, serial_calculate_normalisedEvents [goodF5, badF5] demoModelFile = .error e :=
  (per_read_failure_locality [] [goodF5, badF5] demoModelFile demoModel badF5
    .SingularMatrixError (by decide!) (by decide!) (by decide!)).2

/-- C5 counterexample: the batch `[goodF5, badF5]` does not complete with
the successful subset `[[1, 3]]` (which the good read alone produces); the
uncaught singular-calibration failure of the second read aborts the batch. -/
theorem per_read_failure_locality_counterexample :
    serial_calculate_normalisedEvents [goodF5] demoModelFile = .ok [[1, 3]] ∧
    serial_calculate_normalisedEvents [goodF5, badF5] demoModelFile =
      .error .SingularMatrixError ∧
    serial_calculate_normalisedEvents [goodF5, badF5] demoModelFile ≠ .ok [[1, 3]] :=
  ⟨by decide!, by decide!, by decide!⟩

lemma dictInsert_key_mem {V : Type} (m : List (List Char × V)) (a k : List Char) (v : V)
    (h : k ∈ (dictInsert m a v).map Prod.fst) : k ∈ m.map Prod.fst ∨ k = a := by
  unfold dictInsert at h
  split at h
  · rw [List.map_map] at h
    obtain ⟨p, hp, hpk⟩ := List.mem_map.mp h
    by_cases hpa : p.1 = a
    · right
      simp only [Function.comp_apply, if_pos hpa] at hpk
      exact hpk.symm
    · left
      simp only [Function.comp_apply, if_neg hpa] at hpk
      exact hpk ▸ List.mem_map_of_mem Prod.fst hp
  · rw [List.map_append] at h
    rcases List.mem_append.mp h with h | h
    · exact Or.inl h
    · right
      simpa using h

lemma foldl_dictInsert_key_mem {V : Type} :
    ∀ (ts : List (List Char × V)) (acc : List (List Char × V)) (k : List Char),
      k ∈ (ts.foldl (fun m t => dictInsert m t.1 t.2) acc).map Prod.fst →
      k ∈ acc.map Prod.fst ∨ k ∈ ts.map Prod.fst := by
  intro ts
  induction ts with
  | nil => intro acc k h; exact Or.inl h
  | cons t ts ih =>
    intro acc k h
    rw [List.foldl_cons] at h
    rcases ih _ k h with h | h
    · rcases dictInsert_key_mem acc t.1 k t.2 h with h | h
      · exact Or.inl h
      · right
        rw [List.map_cons, h]
        exact List.mem_cons_self _ _
    · right
      rw [List.map_cons]
      exact List.mem_cons_of_mem _ h

lemma parallel_ok_fst (kmer : List Char) (files : List Fast5)
    (modelFile : List (List Char)) (progress : Nat × Nat)
    (t : List Char × List (List ℚ))
    (h : parallel_calculate_normalisedEvents kmer files modelFile progress = .ok t) :
    t.1 = kmer := by
  unfold parallel_calculate_normalisedEvents at h
  cases himp : import_poreModel modelFile with
  | error e => rw [himp] at h; exact absurd h (by simp)
  | ok model =>
    rw [himp] at h
    dsimp only at h
    cases hloop : parallelLoop model files with
    | error e => rw [hloop] at h; exact absurd h (by simp)
    | ok rs =>
      rw [hloop] at h
      dsimp only at h
      cases h
      rfl

lemma hairpinLoop_keys (poreModelFile : List (List Char)) (env : List Char → Fast5)
    (total : Nat) :
    ∀ (bs : List (List Char × List (List Char))) (i : Nat)
      (ts : List (List Char × List (List ℚ))),
      hairpinLoop poreModelFile env total bs i = .ok ts →
      ts.map Prod.fst = bs.map Prod.fst := by
  intro bs
  induction bs with
  | nil =>
    intro i ts h
    simp only [hairpinLoop] at h
    cases h
    rfl
  | cons b bs ih =>
    intro i ts h
    simp only [hairpinLoop] at h
    cases hpar : parallel_calculate_normalisedEvents b.1 (List.map env b.2)
        poreModelFile (i, total) with
    | error e => rw [hpar] at h; exact absurd h (by simp)
    | ok t =>
      rw [hpar] at h
      cases hrec : hairpinLoop poreModelFile env total bs (i + 1) with
      | error e => rw [hrec] at h; exact absurd h (by simp)
      | ok ts' =>
        rw [hrec] at h
        dsimp only at h
        cases h
        rw [List.map_cons, List.map_cons, parallel_ok_fst _ _ _ _ _ hpar, ih _ _ hrec]

/-- C4: A k-mer key appears in the final aggregated mapping only if its
bucket collected at least `readsThreshold` reads; smaller buckets are
dropped before normalisation and never appear. -/
theorem bucket_threshold_invariant (reference : List Char) (redundant_A_Loc : Nat)
    (records : List BamRecord) (modelFile : List (List Char)) (env : List Char → Fast5)
    (readsThreshold : Nat) (m : List (List Char × List (List ℚ)))
    (h : import_HairpinTrainingData reference redundant_A_Loc records modelFile env
      readsThreshold = .ok m) :
    ∀ k v, (k, v) ∈ m →
      ∃ files, (k, files) ∈ buildKmer2Files reference redundant_A_Loc records ∧
        readsThreshold ≤ files.length := by
  intro k v hkv
  unfold import_HairpinTrainingData at h
  dsimp only at h
  cases hl : hairpinLoop modelFile env
      (((buildKmer2Files reference redundant_A_Loc records).filter
        (fun b => decide (b.2.length ≥ readsThreshold))).length)
      ((buildKmer2Files reference redundant_A_Loc records).filter
        (fun b => decide (b.2.length ≥ readsThreshold))) 0 with
  | error e => rw [hl] at h; exact absurd h (by simp)
  | ok ts =>
    rw [hl] at h
    dsimp only at h
    have hm : ts.foldl (fun m t => dictInsert m t.1 t.2) [] = m := by
      cases h
      rfl
    have hk : k ∈ ts.map Prod.fst := by
      have : k ∈ m.map Prod.fst := List.mem_map_of_mem Prod.fst hkv
      rw [← hm] at this
      rcases foldl_dictInsert_key_mem ts [] k this with habs | hts
      · exact absurd habs (by simp)
      · exact hts
    rw [hairpinLoop_keys modelFile env _ _ _ _ hl] at hk
    obtain ⟨b, hb, hbk⟩ := List.mem_map.mp hk
    obtain ⟨hbB, hbcond⟩ := List.mem_filter.mp hb
    refine ⟨b.2, ?_, ?_⟩
    · rw [← hbk]
      exact hbB
    · exact of_decide_eq_true hbcond

theorem bucket_threshold_invariant_witness :
    ∃ files, (("TTTATTT").toList, files) ∈ buildKmer2Files refEx 7
        [⟨['r','1'], seqAccept⟩, ⟨['r','2'], seqAccept⟩] ∧ 2 ≤ files.length :=
  bucket_threshold_invariant refEx 7 [⟨['r','1'], seqAccept⟩, ⟨['r','2'], seqAccept⟩]
    demoModelFile (fun _ => goodF5) 2 [(("TTTATTT").toList, [[1, 3], [1, 3]])]
    (by decide!) ("TTTATTT").toList [[1, 3], [1, 3]] (by decide!)

lemma occurrences_pairwise (p s : List Char) : (occurrences p s).Pairwise (· < ·) :=
  List.Pairwise.sublist (List.filter_sublist _) (List.pairwise_lt_range _)

lemma occurrences_head_le (p s : List Char) (h : Nat)
    (hh : (occurrences p s).head? = some h) : ∀ i ∈ occurrences p s, h ≤ i := by
  intro i hi
  cases hocc : occurrences p s with
  | nil => rw [hocc] at hi; exact absurd hi (List.not_mem_nil i)
  | cons a l =>
    rw [hocc] at hh hi
    simp only [List.head?_cons, Option.some_inj] at hh
    subst hh
    rcases List.mem_cons.mp hi with rfl | hi
    · exact le_refl _
    · have hpw := occurrences_pairwise p s
      rw [hocc] at hpw
      exact le_of_lt ((List.pairwise_cons.mp hpw).1 i hi)

lemma pyFind_lt_iff (p s : List Char) (x : Int) :
    (pyFind p s ≠ -1 ∧ pyFind p s < x) ↔ ∃ i ∈ occurrences p s, (i : Int) < x := by
  unfold pyFind
  cases hocc : (occurrences p s).head? with
  | none =>
    have hnil : occurrences p s = [] := List.head?_eq_none_iff.mp hocc
    simp [hnil]
  | some h =>
    dsimp only
    have hmem : h ∈ occurrences p s := by
      cases hl : occurrences p s with
      | nil => rw [hl] at hocc; exact absurd hocc (by simp)
      | cons a l =>
        rw [hl] at hocc
        simp only [List.head?_cons, Option.some_inj] at hocc
        rw [hocc]
        exact List.mem_cons_self _ _
    constructor
    · rintro ⟨-, hlt⟩
      exact ⟨h, hmem, hlt⟩
    · rintro ⟨i, hi, hix⟩
      have hle := occurrences_head_le p s h hocc i hi
      refine ⟨by omega, ?_⟩
      have hcast : (h : Int) ≤ (i : Int) := by exact_mod_cast hle
      exact lt_of_le_of_lt hcast hix

lemma mem_candidatesFor (reference : List Char) (redundant_A_Loc : Nat)
    (sequence x : List Char) :
    x ∈ candidatesFor reference redundant_A_Loc sequence ↔
      ∃ si ∈ occurrences (pySlice reference (redundant_A_Loc - 7) (redundant_A_Loc - 3))
          sequence,
      ∃ ei ∈ occurrences (pySlice reference (redundant_A_Loc + 4) (redundant_A_Loc + 8))
          sequence,
        si + (pySlice reference (redundant_A_Loc - 7) (redundant_A_Loc - 3)).length < ei ∧
        x = pySlice sequence
          (si + (pySlice reference (redundant_A_Loc - 7) (redundant_A_Loc - 3)).length) ei ∧
        x.length = 7 ∧ x.get? 3 = some 'A' := by
  unfold candidatesFor
  dsimp only
  rw [List.mem_flatMap]
  constructor
  · rintro ⟨si, hsi, hx⟩
    rw [List.mem_filterMap] at hx
    obtain ⟨ei, hei, hcond⟩ := hx
    rw [Option.ite_none_right_eq_some, Option.ite_none_right_eq_some,
      Option.some_inj] at hcond
    obtain ⟨h1, ⟨h2, h3⟩, h4⟩ := hcond
    subst h4
    exact ⟨si, hsi, ei, hei, h1, rfl, h2, h3⟩
  · rintro ⟨si, hsi, ei, hei, h1, h2, h3, h4⟩
    refine ⟨si, hsi, ?_⟩
    rw [List.mem_filterMap]
    refine ⟨ei, hei, ?_⟩
    rw [Option.ite_none_right_eq_some, Option.ite_none_right_eq_some, Option.some_inj]
    subst h2
    exact ⟨h1, ⟨h3, h4⟩, rfl⟩

lemma assignRead_eq_some_iff (reference : List Char) (redundant_A_Loc : Nat)
    (sequence c : List Char) :
    assignRead reference redundant_A_Loc sequence = some c ↔
      candidatesFor reference redundant_A_Loc sequence = [c] ∧
      ∃ i ∈ occurrences (reverseComplement c) sequence, (i : Int) < pyFind c sequence := by
  unfold assignRead
  cases hcs : candidatesFor reference redundant_A_Loc sequence with
  | nil => simp
  | cons c0 cs =>
    cases cs with
    | nil =>
      dsimp only
      constructor
      · intro h
        split_ifs at h with hcond
        obtain rfl : c0 = c := by injection h
        exact ⟨rfl, (pyFind_lt_iff _ _ _).mp hcond⟩
      · rintro ⟨hceq, hex⟩
        injection hceq with h1 h2
        subst h1
        rw [if_pos ((pyFind_lt_iff _ _ _).mpr hex)]
    | cons c1 cs' =>
      dsimp only
      constructor
      · intro h
        exact absurd h (by simp)
      · rintro ⟨hceq, -⟩
        exact absurd hceq (by simp)

/-- C1 (amended): candidate collection is exactly as the claim describes;
acceptance requires the collected candidate list (with multiplicity: each
flanking-pair extraction counts separately) to have length exactly one, and
the reverse complement of the candidate to occur strictly before the
candidate's own first-occurrence index.  No other read is assigned a bucket. -/
theorem motif_context_resolver (reference : List Char) (redundant_A_Loc : Nat)
    (sequence : List Char) (hp : 7 ≤ redundant_A_Loc) :
    (∀ x, x ∈ candidatesFor reference redundant_A_Loc sequence ↔
      ∃ si ∈ occurrences (pySlice reference (redundant_A_Loc - 7) (redundant_A_Loc - 3))
          sequence,
      ∃ ei ∈ occurrences (pySlice reference (redundant_A_Loc + 4) (redundant_A_Loc + 8))
          sequence,
        si + (pySlice reference (redundant_A_Loc - 7) (redundant_A_Loc - 3)).length < ei ∧
        x = pySlice sequence
          (si + (pySlice reference (redundant_A_Loc - 7) (redundant_A_Loc - 3)).length) ei ∧
        x.length = 7 ∧ x.get? 3 = some 'A') ∧
    (∀ c, assignRead reference redundant_A_Loc sequence = some c ↔
      candidatesFor reference redundant_A_Loc sequence = [c] ∧
      ∃ i ∈ occurrences (reverseComplement c) sequence, (i : Int) < pyFind c sequence) :=
  ⟨fun x => mem_candidatesFor reference redundant_A_Loc sequence x,
   fun c => assignRead_eq_some_iff reference redundant_A_Loc sequence c⟩

theorem motif_context_resolver_witness :
    assignRead refEx 7 seqAccept = some (("TTTATTT").toList) :=
  ((motif_context_resolver refEx 7 seqAccept (by norm_num)).2 (("TTTATTT").toList)).mpr
    ⟨by decide, by decide⟩

/-- C1 counterexample: for `seqDouble` there is exactly one unique candidate
(`TTTATTT`, extracted by two different flanking pairs) and its reverse
complement occurs strictly before it, yet the code assigns the read to no
bucket, because the candidate list counts multiplicity and has length two. -/
theorem motif_context_resolver_counterexample :
    (candidatesFor refEx 7 seqDouble).dedup = [("TTTATTT").toList] ∧
    (∃ i ∈ occurrences (reverseComplement (("TTTATTT").toList)) seqDouble,
      (i : Int) < pyFind (("TTTATTT").toList) seqDouble) ∧
    assignRead refEx 7 seqDouble = none :=
  ⟨by decide, by decide, by decide⟩

lemma charToDigit_digitChar (d : Nat) (hd : d < 10) :
    charToDigit (Nat.digitChar d) = d ∧ (Nat.digitChar d).isDigit = true := by
  interval_cases d <;> exact ⟨by decide, by decide⟩

lemma digitsFuel_spec : ∀ fuel n : Nat, n ≤ fuel →
    (digitsFuel fuel n).foldr (fun d a => 10 * a + d) 0 = n ∧
    ∀ d ∈ digitsFuel fuel n, d < 10 := by
  intro fuel
  induction fuel with
  | zero =>
    intro n hn
    have h0 : n = 0 := by omega
    subst h0
    exact ⟨rfl, by simp [digitsFuel]⟩
  | succ fuel ih =>
    intro n hn
    by_cases h0 : n = 0
    · subst h0
      simp [digitsFuel]
    · have hdiv : n / 10 ≤ fuel := by omega
      obtain ⟨ihv, ihd⟩ := ih (n / 10) hdiv
      simp only [digitsFuel, if_neg h0, List.foldr_cons, List.mem_cons]
      refine ⟨by rw [ihv]; omega, ?_⟩
      rintro d (rfl | hd)
      · omega
      · exact ihd d hd

lemma natChars_digits (n : Nat) : ∀ c ∈ natChars n, c.isDigit = true := by
  intro c hc
  unfold natChars at hc
  split at hc
  · rcases List.mem_singleton.mp hc with rfl
    decide
  · rw [List.mem_map] at hc
    obtain ⟨d, hd, rfl⟩ := hc
    rw [List.mem_reverse] at hd
    exact (charToDigit_digitChar d ((digitsFuel_spec n n le_rfl).2 d hd)).2

lemma natChars_ne_nil (n : Nat) : natChars n ≠ [] := by
  unfold natChars
  split
  · simp
  · intro h
    rw [List.map_eq_nil_iff, List.reverse_eq_nil_iff] at h
    have := (digitsFuel_spec n n le_rfl).1
    rw [h] at this
    simp at this
    omega

lemma foldr_digitChar_eq : ∀ L : List Nat, (∀ d ∈ L, d < 10) →
    L.foldr (fun d a => 10 * a + charToDigit (Nat.digitChar d)) 0 =
      L.foldr (fun d a => 10 * a + d) 0 := by
  intro L
  induction L with
  | nil => intro _; rfl
  | cons d L ih =>
    intro hL
    simp only [List.foldr_cons]
    rw [ih (fun x hx => hL x (List.mem_cons_of_mem _ hx)),
      (charToDigit_digitChar d (hL d (List.mem_cons_self _ _))).1]

lemma charsToNat_natChars (n : Nat) : charsToNat (natChars n) = n := by
  unfold natChars
  split
  · rename_i h0
    subst h0
    decide
  · unfold charsToNat
    rw [List.map_reverse, List.foldl_reverse, List.foldr_map]
    rw [foldr_digitChar_eq _ (digitsFuel_spec n n le_rfl).2]
    exact (digitsFuel_spec n n le_rfl).1

lemma takeDigits_append : ∀ (ds rest : List Char), (∀ c ∈ ds, c.isDigit = true) →
    (∀ c, rest.head? = some c → c.isDigit = false) →
    takeDigits (ds ++ rest) = (ds, rest) := by
  intro ds
  induction ds with
  | nil =>
    intro rest _ hrest
    cases rest with
    | nil => rfl
    | cons r t =>
      have hr := hrest r rfl
      simp [takeDigits, List.takeWhile_cons, List.dropWhile_cons, hr]
  | cons d ds ih =>
    intro rest hds hrest
    have hd : d.isDigit = true := hds d (List.mem_cons_self _ _)
    have ht := ih rest (fun c hc => hds c (List.mem_cons_of_mem _ hc)) hrest
    have ht1 : List.takeWhile Char.isDigit (ds ++ rest) = ds := congrArg Prod.fst ht
    have ht2 : List.dropWhile Char.isDigit (ds ++ rest) = rest := congrArg Prod.snd ht
    simp [takeDigits, List.cons_append, List.takeWhile_cons, List.dropWhile_cons, hd, ht1, ht2]

lemma takeDigits_all (ds : List Char) (hds : ∀ c ∈ ds, c.isDigit = true) :
    takeDigits ds = (ds, []) := by
  have := takeDigits_append ds [] hds (by intro c hc; exact absurd hc (by simp))
  simpa using this

lemma parseExp_eneg (v : ℚ) (k : Nat) :
    parseExp v ('e' :: '-' :: natChars k) = some (v / ((10 ^ k : ℕ) : ℚ)) := by
  cases hnc : natChars k with
  | nil => exact absurd hnc (natChars_ne_nil k)
  | cons c cs =>
    have htd : takeDigits (c :: cs) = (c :: cs, []) := by
      rw [← hnc]
      exact takeDigits_all _ (natChars_digits k)
    simp only [parseExp, htd, if_true]
    rw [← hnc, charsToNat_natChars]

lemma parseSigned_print (sgn : ℚ) (n k : Nat) :
    parseSigned sgn (natChars n ++ 'e' :: '-' :: natChars k) =
      some (sgn * ((n : ℚ) + 0) / ((10 ^ k : ℕ) : ℚ)) := by
  have htd := takeDigits_append (natChars n) ('e' :: '-' :: natChars k) (natChars_digits n)
    (by
      intro c hc
      simp only [List.head?_cons, Option.some_inj] at hc
      rw [← hc]
      decide)
  cases hnc : natChars n with
  | nil => exact absurd hnc (natChars_ne_nil n)
  | cons c cs =>
    rw [hnc] at htd
    unfold parseSigned
    rw [htd]
    dsimp only
    rw [← hnc, charsToNat_natChars]
    have hAI : parseAfterInt sgn (n : ℚ) ('e' :: '-' :: natChars k) =
        parseExp (sgn * ((n : ℚ) + 0)) ('e' :: '-' :: natChars k) := rfl
    rw [hAI, parseExp_eneg]

lemma printQ_val (q : ℚ) (hden : q.den ∣ 10 ^ q.den) :
    ((q.num.natAbs * 10 ^ q.den / q.den : ℕ) : ℚ) / ((10 ^ q.den : ℕ) : ℚ) =
      (q.num.natAbs : ℚ) / (q.den : ℚ) := by
  have hdvd : q.den ∣ q.num.natAbs * 10 ^ q.den := hden.mul_left _
  have hden0 : ((q.den : ℕ) : ℚ) ≠ 0 := by
    exact_mod_cast q.den_nz
  have h10 : ((10 ^ q.den : ℕ) : ℚ) ≠ 0 := by
    push_cast
    positivity
  rw [Nat.cast_div hdvd hden0]
  field_simp
  ring

lemma parseQ_printQ (q : ℚ) (hden : q.den ∣ 10 ^ q.den) : parseQ (printQ q) = some q := by
  unfold printQ
  by_cases hneg : q.num < 0
  · rw [if_pos hneg, List.cons_append]
    unfold parseQ
    rw [List.head?_cons, if_pos rfl, List.tail_cons, parseSigned_print]
    congr 1
    have habs : ((q.num.natAbs : ℕ) : ℚ) = -(q.num : ℚ) := by
      rw [Int.cast_natAbs, abs_of_neg hneg]
      push_cast
      ring
    rw [add_zero, neg_one_mul, neg_div, printQ_val q hden, habs, neg_div, neg_neg,
      Rat.num_div_den]
  · rw [if_neg hneg]
    cases hnc : natChars (q.num.natAbs * 10 ^ q.den / q.den) with
    | nil => exact absurd hnc (natChars_ne_nil _)
    | cons c cs =>
      have hcd : c.isDigit = true := natChars_digits _ c (by
        rw [hnc]
        exact List.mem_cons_self _ _)
      have hcne : ¬((c :: (cs ++ 'e' :: '-' :: natChars q.den)).head? = some '-') := by
        simp only [List.head?_cons, Option.some_inj]
        intro h
        rw [h] at hcd
        exact absurd hcd (by decide)
      rw [List.cons_append]
      unfold parseQ
      rw [if_neg hcne, ← List.cons_append, ← hnc, parseSigned_print]
      congr 1
      have habs : ((q.num.natAbs : ℕ) : ℚ) = (q.num : ℚ) := by
        rw [Int.cast_natAbs, abs_of_nonneg (not_lt.mp hneg)]
      rw [add_zero, one_mul, printQ_val q hden, habs, Rat.num_div_den]

lemma splitTab_no_tab : ∀ a : List Char, '\t' ∉ a → splitTab a = [a] := by
  intro a
  induction a with
  | nil => intro _; rfl
  | cons c a ih =>
    intro h
    have hc : c ≠ '\t' := fun hc => h (hc ▸ List.mem_cons_self _ _)
    have ha : '\t' ∉ a := fun ha => h (List.mem_cons_of_mem _ ha)
    simp only [splitTab, if_neg hc, ih ha]

lemma splitTab_append : ∀ a r : List Char, '\t' ∉ a →
    splitTab (a ++ '\t' :: r) = a :: splitTab r := by
  intro a
  induction a with
  | nil =>
    intro r _
    simp [splitTab]
  | cons c a ih =>
    intro r h
    have hc : c ≠ '\t' := fun hc => h (hc ▸ List.mem_cons_self _ _)
    have ha : '\t' ∉ a := fun ha => h (List.mem_cons_of_mem _ ha)
    simp only [List.cons_append, splitTab, if_neg hc, List.append_eq, ih r ha]

lemma printQ_chars (q : ℚ) : ∀ c ∈ printQ q, c = '-' ∨ c = 'e' ∨ c.isDigit = true := by
  intro c hc
  unfold printQ at hc
  rw [List.mem_append] at hc
  rcases hc with hc | hc
  · split at hc
    · rcases List.mem_cons.mp hc with rfl | hc
      · exact Or.inl rfl
      · exact Or.inr (Or.inr (natChars_digits _ c hc))
    · exact Or.inr (Or.inr (natChars_digits _ c hc))
  · rcases List.mem_cons.mp hc with rfl | hc
    · exact Or.inr (Or.inl rfl)
    · rcases List.mem_cons.mp hc with rfl | hc
      · exact Or.inl rfl
      · exact Or.inr (Or.inr (natChars_digits _ c hc))

lemma printQ_no_tab (q : ℚ) : '\t' ∉ printQ q := by
  intro h
  rcases printQ_chars q '\t' h with h | h | h <;> exact absurd h (by decide)

lemma splitTab_exportLine (e : List Char × ℚ × ℚ) (hkey : '\t' ∉ e.1) :
    splitTab (exportLine e) = [e.1, printQ e.2.1, printQ e.2.2, zeroField, zeroField] := by
  unfold exportLine
  rw [splitTab_append _ _ hkey, splitTab_append _ _ (printQ_no_tab _),
    splitTab_append _ _ (printQ_no_tab _), splitTab_append _ _ (by decide),
    splitTab_no_tab _ (by decide)]

lemma dictInsert_fresh {V : Type} (m : List (List Char × V)) (k : List Char) (v : V)
    (h : k ∉ m.map Prod.fst) : dictInsert m k v = m ++ [(k, v)] := by
  unfold dictInsert
  rw [if_neg ?hany]
  case hany =>
    intro hany
    obtain ⟨p, hp, hpk⟩ := List.any_eq_true.mp hany
    exact h (of_decide_eq_true hpk ▸ List.mem_map_of_mem Prod.fst hp)

lemma importLoop_headers (rest : List (List Char)) (acc : List (List Char × ℚ × ℚ)) :
    importLoop (headerLines ++ rest) acc = importLoop rest acc := rfl

lemma importLoop_export : ∀ emissions acc : List (List Char × ℚ × ℚ),
    (∀ p ∈ emissions, p.1 ≠ [] ∧ (∀ c ∈ p.1, c = 'A' ∨ c = 'T' ∨ c = 'G' ∨ c = 'C') ∧
      p.2.1.den ∣ 10 ^ p.2.1.den ∧ p.2.2.den ∣ 10 ^ p.2.2.den) →
    (emissions.map Prod.fst).Nodup →
    (∀ p ∈ emissions, p.1 ∉ acc.map Prod.fst) →
    importLoop (emissions.map exportLine) acc = .ok (acc ++ emissions) := by
  intro emissions
  induction emissions with
  | nil =>
    intro acc _ _ _
    simp [importLoop]
  | cons e es ih =>
    intro acc hcond hnodup hfresh
    obtain ⟨hne, hABC, hd1, hd2⟩ := hcond e (List.mem_cons_self _ _)
    have hkey_tab : '\t' ∉ e.1 := by
      intro htab
      rcases hABC '\t' htab with h | h | h | h <;> exact absurd h (by decide)
    cases hk : e.1 with
    | nil => exact absurd hk hne
    | cons k0 kt =>
      have hk0 := hABC k0 (by rw [hk]; exact List.mem_cons_self _ _)
      have hline : exportLine e = k0 :: (kt ++ ('\t' :: (printQ e.2.1 ++ ('\t' ::
          (printQ e.2.2 ++ ('\t' :: (zeroField ++ ('\t' :: zeroField)))))))) := by
        unfold exportLine
        rw [hk, List.cons_append]
      rw [List.map_cons, hline]
      simp only [importLoop]
      rw [if_neg ?hskip]
      case hskip =>
        rintro (h | h)
        · rcases hk0 with rfl | rfl | rfl | rfl <;> exact absurd h (by decide)
        · rw [List.take_succ_cons] at h
          injection h with h1 _
          rcases hk0 with rfl | rfl | rfl | rfl <;> exact absurd h1 (by decide)
      rw [← hline, splitTab_exportLine e hkey_tab]
      dsimp only
      rw [parseQ_printQ _ hd1, parseQ_printQ _ hd2]
      dsimp only
      rw [dictInsert_fresh acc e.1 (e.2.1, e.2.2) (hfresh e (List.mem_cons_self _ _))]
      have heta : (e.1, e.2.1, e.2.2) = e := rfl
      rw [heta]
      rw [List.map_cons] at hnodup
      have hnd := List.nodup_cons.mp hnodup
      rw [ih (acc ++ [e]) (fun p hp => hcond p (List.mem_cons_of_mem _ hp)) hnd.2 ?hfr]
      case hfr =>
        intro p hp
        rw [List.map_append, List.mem_append]
        rintro (h | h)
        · exact hfresh p (List.mem_cons_of_mem _ hp) h
        · have hpe : p.1 = e.1 := by simpa using h
          exact hnd.1 (hpe ▸ List.mem_map_of_mem Prod.fst hp)
      rw [List.append_assoc]
      rfl

/-- C6: Exporting an emissions table over the DNA alphabet and importing the
written file recovers exactly the original keys and (mean, std) values
(exact in the rational embedding of floats), and in every written data line
the two placeholder columns are the literal field `0.0`, which reads back as
the value 0. -/
theorem pore_model_round_trip (emissions : List (List Char × ℚ × ℚ))
    (hcond : ∀ p ∈ emissions, p.1 ≠ [] ∧ (∀ c ∈ p.1, c = 'A' ∨ c = 'T' ∨ c = 'G' ∨ c = 'C') ∧
      p.2.1.den ∣ 10 ^ p.2.1.den ∧ p.2.2.den ∣ 10 ^ p.2.2.den)
    (hnodup : (emissions.map Prod.fst).Nodup) :
    import_poreModel (export_poreModel emissions) = .ok emissions ∧
    ∀ line ∈ (export_poreModel emissions).drop 5,
      ((splitTab line).get? 3).bind parseQ = some 0 ∧
      ((splitTab line).get? 4).bind parseQ = some 0 := by
  constructor
  · unfold import_poreModel export_poreModel
    rw [importLoop_headers]
    rw [importLoop_export emissions [] hcond hnodup (by simp)]
    rfl
  · intro line hline
    unfold export_poreModel at hline
    have h5 : (5 : Nat) = headerLines.length := rfl
    rw [h5, List.drop_left] at hline
    obtain ⟨p, hp, rfl⟩ := List.mem_map.mp hline
    obtain ⟨-, hABC, -, -⟩ := hcond p hp
    have hkey_tab : '\t' ∉ p.1 := by
      intro htab
      rcases hABC '\t' htab with h | h | h | h <;> exact absurd h (by decide)
    rw [splitTab_exportLine p hkey_tab]
    constructor
    · show (some zeroField).bind parseQ = some 0
      decide!
    · show (some zeroField).bind parseQ = some 0
      decide!

theorem pore_model_round_trip_witness :
    import_poreModel (export_poreModel [(("AAAAA").toList, 1/2, 3)]) =
      .ok [(("AAAAA").toList, 1/2, 3)] :=
  (pore_model_round_trip [(("AAAAA").toList, 1/2, 3)] (by decide!) (by decide!)).1

lemma modelLookup_cons (p : List Char × ℚ × ℚ) (m : PoreModel) (k : List Char) :
    modelLookup (p :: m) k = if p.1 = k then some p.2 else modelLookup m k := by
  by_cases h : p.1 = k
  · simp [modelLookup, List.find?, h]
  · simp [modelLookup, List.find?, h]

lemma dictInsert_keys {V : Type} (m : List (List Char × V)) (k : List Char) (v : V) :
    (dictInsert m k v).map Prod.fst =
      if k ∈ m.map Prod.fst then m.map Prod.fst else m.map Prod.fst ++ [k] := by
  unfold dictInsert
  split
  · rename_i hany
    have hk : k ∈ m.map Prod.fst := by
      obtain ⟨p, hp, hpk⟩ := List.any_eq_true.mp hany
      exact of_decide_eq_true hpk ▸ List.mem_map_of_mem Prod.fst hp
    rw [if_pos hk, List.map_map]
    apply List.map_congr_left
    intro p _
    by_cases hp : p.1 = k
    · simp [Function.comp_apply, hp]
    · simp [Function.comp_apply, hp]
  · rename_i hany
    have hk : k ∉ m.map Prod.fst := by
      intro hmem
      apply hany
      obtain ⟨p, hp, hpk⟩ := List.mem_map.mp hmem
      exact List.any_eq_true.mpr ⟨p, hp, decide_eq_true hpk⟩
    rw [if_neg hk, List.map_append]
    rfl

lemma dictInsert_key_mem_iff {V : Type} (m : List (List Char × V)) (a k : List Char) (v : V) :
    k ∈ (dictInsert m a v).map Prod.fst ↔ k ∈ m.map Prod.fst ∨ k = a := by
  rw [dictInsert_keys]
  split
  · rename_i hm
    constructor
    · exact Or.inl
    · rintro (h | rfl)
      · exact h
      · exact hm
  · rw [List.mem_append, List.mem_singleton]

lemma dictInsert_nodup {V : Type} (m : List (List Char × V)) (k : List Char) (v : V)
    (h : (m.map Prod.fst).Nodup) : ((dictInsert m k v).map Prod.fst).Nodup := by
  rw [dictInsert_keys]
  split
  · exact h
  · rename_i hk
    rw [List.nodup_append]
    refine ⟨h, List.nodup_singleton _, ?_⟩
    intro x hx hxk
    rw [List.mem_singleton] at hxk
    exact hk (hxk ▸ hx)

lemma modelLookup_overwrite : ∀ (m : PoreModel) (k : List Char) (v : ℚ × ℚ) (k' : List Char),
    modelLookup (m.map (fun p => if p.1 = k then (k, v) else p)) k' =
      if k' = k then (if k ∈ m.map Prod.fst then some v else none)
      else modelLookup m k' := by
  intro m k v
  induction m with
  | nil =>
    intro k'
    simp only [List.map_nil]
    by_cases hk : k' = k
    · simp [modelLookup, hk]
    · simp [modelLookup, hk]
  | cons p m ih =>
    intro k'
    rw [List.map_cons, modelLookup_cons, modelLookup_cons]
    by_cases hp : p.1 = k
    · rw [if_pos hp]
      by_cases hk : k' = k
      · subst hk
        simp [hp]
      · have hkk : ¬(k = k') := fun h => hk h.symm
        simp only [hkk, if_neg hk, if_false]
        rw [ih k', if_neg hk, if_neg (hp ▸ hkk : ¬(p.1 = k'))]
    · rw [if_neg hp]
      by_cases hpk : p.1 = k'
      · have hk : ¬(k' = k) := fun h => hp (h ▸ hpk)
        rw [if_pos hpk, if_neg hk, if_pos hpk]
      · rw [if_neg hpk, ih k', if_neg hpk]
        by_cases hk : k' = k
        · rw [if_pos hk, if_pos hk]
          simp only [List.map_cons, List.mem_cons]
          by_cases hm : k ∈ List.map Prod.fst m
          · rw [if_pos hm, if_pos (Or.inr hm)]
          · rw [if_neg hm, if_neg (show ¬(k = p.1 ∨ k ∈ List.map Prod.fst m) from by
              rintro (h | h)
              · exact hp h.symm
              · exact hm h)]
        · rw [if_neg hk, if_neg hk]

lemma modelLookup_append_single : ∀ (m : PoreModel) (k : List Char) (v : ℚ × ℚ)
    (k' : List Char), k ∉ m.map Prod.fst →
    modelLookup (m ++ [(k, v)]) k' = if k' = k then some v else modelLookup m k' := by
  intro m k v
  induction m with
  | nil =>
    intro k' _
    rw [List.nil_append, modelLookup_cons]
    by_cases hk : k' = k
    · rw [if_pos (hk.symm : (k, v).1 = k'), if_pos hk]
    · rw [if_neg (fun h => hk (h.symm : k' = k)), if_neg hk]
  | cons p m ih =>
    intro k' hk
    have hpk : p.1 ≠ k := fun h => hk (by rw [List.map_cons, ← h]; exact List.mem_cons_self _ _)
    have hkm : k ∉ m.map Prod.fst := fun h => hk (by rw [List.map_cons]; exact List.mem_cons_of_mem _ h)
    rw [List.cons_append, modelLookup_cons, modelLookup_cons, ih k' hkm]
    by_cases hp : p.1 = k'
    · have hkne : ¬(k' = k) := fun h => hpk (h ▸ hp)
      rw [if_pos hp, if_neg hkne, if_pos hp]
    · rw [if_neg hp]
      by_cases hkne : k' = k
      · rw [if_pos hkne, if_pos hkne]
      · rw [if_neg hkne, if_neg hkne, if_neg hp]

lemma dictInsert_lookup (m : PoreModel) (k : List Char) (v : ℚ × ℚ) (k' : List Char) :
    modelLookup (dictInsert m k v) k' = if k' = k then some v else modelLookup m k' := by
  unfold dictInsert
  split
  · rename_i hany
    have hk : k ∈ m.map Prod.fst := by
      obtain ⟨p, hp, hpk⟩ := List.any_eq_true.mp hany
      exact of_decide_eq_true hpk ▸ List.mem_map_of_mem Prod.fst hp
    rw [modelLookup_overwrite, if_pos hk]
  · rename_i hany
    have hk : k ∉ m.map Prod.fst := by
      intro hmem
      apply hany
      obtain ⟨p, hp, hpk⟩ := List.mem_map.mp hmem
      exact List.any_eq_true.mpr ⟨p, hp, decide_eq_true hpk⟩
    exact modelLookup_append_single m k v k' hk

theorem alignment_record_filtering_witness :
    keepRecord exLengths exRecord = true ∧ keepRecord exLengths exRecord075 = false :=
  ⟨((alignment_record_filtering exLengths [] exRecord 9 9 rfl rfl).1).mpr
      (by norm_num [exRecord, exLengths]),
    ((alignment_record_filtering exLengths [] exRecord075 9 6 rfl rfl).2.1)
      (by norm_num [exRecord075])⟩

lemma getLast?_or_cons {α : Type} (a : α) (l : List α) :
    (a :: l).getLast? = (l.getLast?).or (some a) := by
  cases l with
  | nil => rfl
  | cons b l =>
    rw [List.getLast?_cons_cons]
    obtain ⟨y, hy⟩ := Option.isSome_iff_exists.mp
      (List.getLast?_isSome.mpr (by simp) : ((b :: l).getLast?).isSome)
    rw [hy]
    rfl

lemma parsedEntries_cons_data (line : List Char) (rest : List (List Char))
    (e : List Char × ℚ × ℚ)
    (hP : line.head? ≠ some '#' ∧ line.take 4 ≠ kmerToken)
    (hpl : parseLine line = some e) :
    parsedEntries (line :: rest) = e :: parsedEntries rest := by
  unfold parsedEntries dataLines
  rw [List.filter_cons, if_pos (decide_eq_true hP), List.filterMap_cons, hpl]

lemma parsedEntries_cons_header (line : List Char) (rest : List (List Char))
    (hP : ¬(line.head? ≠ some '#' ∧ line.take 4 ≠ kmerToken)) :
    parsedEntries (line :: rest) = parsedEntries rest := by
  unfold parsedEntries dataLines
  rw [List.filter_cons, if_neg (fun h => hP (of_decide_eq_true h))]

lemma dataLines_cons_data (line : List Char) (rest : List (List Char))
    (hP : line.head? ≠ some '#' ∧ line.take 4 ≠ kmerToken) :
    dataLines (line :: rest) = line :: dataLines rest := by
  unfold dataLines
  rw [List.filter_cons, if_pos (decide_eq_true hP)]

lemma dataLines_cons_header (line : List Char) (rest : List (List Char))
    (hP : ¬(line.head? ≠ some '#' ∧ line.take 4 ≠ kmerToken)) :
    dataLines (line :: rest) = dataLines rest := by
  unfold dataLines
  rw [List.filter_cons, if_neg (fun h => hP (of_decide_eq_true h))]

lemma lastParsed_cons_data (line : List Char) (rest : List (List Char))
    (e : List Char × ℚ × ℚ) (k : List Char)
    (hP : line.head? ≠ some '#' ∧ line.take 4 ≠ kmerToken)
    (hpl : parseLine line = some e) :
    lastParsed (line :: rest) k =
      (lastParsed rest k).or (if e.1 = k then some e.2 else none) := by
  unfold lastParsed
  rw [parsedEntries_cons_data line rest e hP hpl]
  by_cases hek : e.1 = k
  · rw [List.filter_cons, if_pos (decide_eq_true hek), if_pos hek, getLast?_or_cons]
    cases hgl : ((parsedEntries rest).filter (fun x => decide (x.1 = k))).getLast? with
    | none => rfl
    | some y => rfl
  · rw [List.filter_cons, if_neg (fun h => hek (of_decide_eq_true h)), if_neg hek, Option.or_none]

lemma lastParsed_cons_header (line : List Char) (rest : List (List Char)) (k : List Char)
    (hP : ¬(line.head? ≠ some '#' ∧ line.take 4 ≠ kmerToken)) :
    lastParsed (line :: rest) k = lastParsed rest k := by
  unfold lastParsed
  rw [parsedEntries_cons_header line rest hP]

lemma importLoop_ok_facts : ∀ (file : List (List Char)) (acc m : List (List Char × ℚ × ℚ)),
    importLoop file acc = .ok m → (acc.map Prod.fst).Nodup →
    (m.map Prod.fst).Nodup ∧
    (∀ k, k ∈ m.map Prod.fst ↔
      k ∈ acc.map Prod.fst ∨ k ∈ (parsedEntries file).map Prod.fst) ∧
    (∀ k, modelLookup m k = (lastParsed file k).or (modelLookup acc k)) ∧
    (parsedEntries file).length = (dataLines file).length := by
  intro file
  induction file with
  | nil =>
    intro acc m h hnd
    have hm : acc = m := by
      simpa [importLoop] using h
    subst hm
    refine ⟨hnd, fun k => by simp [parsedEntries, dataLines], fun k => ?_, rfl⟩
    simp [lastParsed, parsedEntries, dataLines, Option.or]
  | cons line rest ih =>
    intro acc m h hnd
    cases line with
    | nil => simp [importLoop] at h
    | cons c t =>
      by_cases hskip : c = '#' ∨ (c :: t).take 4 = kmerToken
      · simp only [importLoop, if_pos hskip] at h
        have hP : ¬((c :: t).head? ≠ some '#' ∧ (c :: t).take 4 ≠ kmerToken) := by
          rintro ⟨h1, h2⟩
          rcases hskip with h3 | h3
          · subst h3
            exact h1 rfl
          · exact h2 h3
        obtain ⟨f1, f2, f3, f4⟩ := ih acc m h hnd
        refine ⟨f1, fun k => ?_, fun k => ?_, ?_⟩
        · rw [parsedEntries_cons_header _ _ hP]
          exact f2 k
        · rw [lastParsed_cons_header _ _ _ hP]
          exact f3 k
        · rw [parsedEntries_cons_header _ _ hP, dataLines_cons_header _ _ hP]
          exact f4
      · simp only [importLoop, if_neg hskip] at h
        cases hsp : splitTab (c :: t) with
        | nil => rw [hsp] at h; exact absurd h (by simp)
        | cons f0 fs =>
          cases fs with
          | nil => rw [hsp] at h; exact absurd h (by simp)
          | cons f1 fs2 =>
            cases fs2 with
            | nil => rw [hsp] at h; exact absurd h (by simp)
            | cons f2 fs3 =>
              rw [hsp] at h
              dsimp only at h
              cases hq1 : parseQ f1 with
              | none => rw [hq1] at h; exact absurd h (by simp)
              | some mean =>
                cases hq2 : parseQ f2 with
                | none => rw [hq1, hq2] at h; exact absurd h (by simp)
                | some std =>
                  rw [hq1, hq2] at h
                  dsimp only at h
                  have hpl : parseLine (c :: t) = some (f0, mean, std) := by
                    unfold parseLine
                    rw [hsp]
                    dsimp only
                    rw [hq1, hq2]
                  have hP : (c :: t).head? ≠ some '#' ∧ (c :: t).take 4 ≠ kmerToken := by
                    constructor
                    · intro hh
                      rw [List.head?_cons, Option.some_inj] at hh
                      exact hskip (Or.inl hh)
                    · intro hh
                      exact hskip (Or.inr hh)
                  obtain ⟨f1', f2', f3', f4'⟩ := ih _ m h (dictInsert_nodup acc f0 (mean, std) hnd)
                  refine ⟨f1', fun k => ?_, fun k => ?_, ?_⟩
                  · rw [f2' k, dictInsert_key_mem_iff,
                      parsedEntries_cons_data _ _ _ hP hpl, List.map_cons, List.mem_cons]
                    tauto
                  · rw [f3' k, dictInsert_lookup,
                      lastParsed_cons_data _ _ (f0, mean, std) k hP hpl]
                    cases hlp : lastParsed rest k with
                    | some w => rfl
                    | none =>
                      by_cases hk : k = f0
                      · rw [if_pos hk, if_pos (hk.symm : (f0, mean, std).1 = k)]
                        rfl
                      · rw [if_neg hk, if_neg (fun hh => hk (hh.symm : k = f0))]
                        rfl
                  · rw [parsedEntries_cons_data _ _ _ hP hpl,
                      dataLines_cons_data _ _ hP, List.length_cons, List.length_cons, f4']

/-- C9 (amended): the loader skips `#`-comment and `kmer`-header lines; its
mapping's size equals the number of distinct k-mer keys among the remaining
data lines — equal to the number of those lines exactly when their k-mers
are pairwise distinct — and duplicate k-mers resolve last-write-wins. -/
theorem pore_model_load_size (file : List (List Char)) (m : PoreModel)
    (h : import_poreModel file = .ok m) :
    m.length = ((parsedEntries file).map Prod.fst).dedup.length ∧
    (((parsedEntries file).map Prod.fst).Nodup → m.length = (dataLines file).length) ∧
    (∀ k, modelLookup m k = lastParsed file k) := by
  obtain ⟨hnd, hiff, hlook, hlen⟩ := importLoop_ok_facts file [] m h (by simp)
  have hiff' : ∀ k, k ∈ m.map Prod.fst ↔ k ∈ (parsedEntries file).map Prod.fst := by
    intro k
    rw [hiff k]
    simp
  have hfin : (m.map Prod.fst).toFinset = ((parsedEntries file).map Prod.fst).toFinset := by
    ext k
    rw [List.mem_toFinset, List.mem_toFinset]
    exact hiff' k
  have hsize : m.length = ((parsedEntries file).map Prod.fst).dedup.length := by
    have h1 : m.length = (m.map Prod.fst).length := (List.length_map _ _).symm
    rw [h1, ← List.toFinset_card_of_nodup hnd, hfin, List.card_toFinset]
  refine ⟨hsize, ?_, ?_⟩
  · intro hnodup
    rw [hsize, List.dedup_eq_self.mpr hnodup, List.length_map]
    exact hlen
  · intro k
    rw [hlook k]
    have : modelLookup [] k = none := rfl
    rw [this, Option.or_none]

theorem pore_model_load_size_witness :
    demoModel.length = ((parsedEntries demoModelFile).map Prod.fst).dedup.length :=
  (pore_model_load_size demoModelFile demoModel (by decide!)).1

/-- C9 counterexample: for a valid file whose two data lines (each with at
least 3 fields) carry the same k-mer, the loaded mapping has size 1, not 2:
the size equals the number of distinct keys, not the number of data lines. -/
theorem pore_model_load_size_counterexample :
    (∀ l ∈ dataLines exDupFile, 3 ≤ (splitTab l).length) ∧
    (dataLines exDupFile).length = 2 ∧
    Except.map List.length (import_poreModel exDupFile) = .ok 1 :=
  ⟨by decide, by decide, by decide!⟩
